import Mathlib

/-!
Verification of the tamper-evident ledger implemented in `src/app.py`.

The development shallowly embeds the program: SHA-256 and the JSON
serialization used for block digests are implemented executably; the
`Block` and chain operations mirror the Python source, with
`datetime.now()` modelled as an explicit timestamp argument (the code
immediately normalizes it to a string) and the unbounded proof-of-work
loop given explicit fuel, returning `none` when the fuel runs out (which
models a search that has not yet terminated).

A central point of the embedding: `Block.compute_hash` in the source
serializes `self.__dict__` with sorted keys.  During `Block.__init__`
that dictionary holds only the five fields `index, data, timestamp,
previous_hash, nonce` (the `hash` and `is_valid` attributes are assigned
later), so the in-constructor search hashes a five-key JSON object
(`computeHashInit` below).  Every call after construction sees all seven
attributes, including the previously stored `hash` and `is_valid`
(`Block.compute_hash` below).
-/

set_option maxRecDepth 1000000
set_option maxHeartbeats 4000000

namespace App

/-! ## SHA-256 over byte lists (bytes are `Nat` values below 256) -/

def w32 (x : Nat) : Nat := x % 4294967296

def rotr32 (n x : Nat) : Nat := w32 ((x >>> n) ||| (x <<< (32 - n)))

def shaNot (x : Nat) : Nat := x ^^^ 4294967295

def shaCh (x y z : Nat) : Nat := (x &&& y) ^^^ (shaNot x &&& z)

def shaMaj (x y z : Nat) : Nat := (x &&& y) ^^^ (x &&& z) ^^^ (y &&& z)

def bsig0 (x : Nat) : Nat := rotr32 2 x ^^^ rotr32 13 x ^^^ rotr32 22 x

def bsig1 (x : Nat) : Nat := rotr32 6 x ^^^ rotr32 11 x ^^^ rotr32 25 x

def ssig0 (x : Nat) : Nat := rotr32 7 x ^^^ rotr32 18 x ^^^ (x >>> 3)

def ssig1 (x : Nat) : Nat := rotr32 17 x ^^^ rotr32 19 x ^^^ (x >>> 10)

def sha256K : List Nat :=
  [1116352408, 1899447441, 3049323471, 3921009573, 961987163, 1508970993, 2453635748, 2870763221,
   3624381080, 310598401, 607225278, 1426881987, 1925078388, 2162078206, 2614888103, 3248222580,
   3835390401, 4022224774, 264347078, 604807628, 770255983, 1249150122, 1555081692, 1996064986,
   2554220882, 2821834349, 2952996808, 3210313671, 3336571891, 3584528711, 113926993, 338241895,
   666307205, 773529912, 1294757372, 1396182291, 1695183700, 1986661051, 2177026350, 2456956037,
   2730485921, 2820302411, 3259730800, 3345764771, 3516065817, 3600352804, 4094571909, 275423344,
   430227734, 506948616, 659060556, 883997877, 958139571, 1322822218, 1537002063, 1747873779,
   1955562222, 2024104815, 2227730452, 2361852424, 2428436474, 2756734187, 3204031479, 3329325298]

/-- The running hash state: eight 32-bit words. -/
structure Hash8 where
  v0 : Nat
  v1 : Nat
  v2 : Nat
  v3 : Nat
  v4 : Nat
  v5 : Nat
  v6 : Nat
  v7 : Nat

def sha256InitH : Hash8 :=
  ⟨1779033703, 3144134277, 1013904242, 2773480762, 1359893119, 2600822924, 528734635, 1541459225⟩

/-- Extend the 16 message words of one chunk to the 64-word schedule. -/
def sha256Schedule (ws : List Nat) : List Nat :=
  (List.range 48).foldl
    (fun w i =>
      w ++ [w32 (ssig1 (w.getD (i + 14) 0) + w.getD (i + 9) 0 +
                 ssig0 (w.getD (i + 1) 0) + w.getD i 0)])
    ws

/-- One compression round: `kw` is the pair of round constant and schedule word. -/
def sha256Round (s : Hash8) (kw : Nat × Nat) : Hash8 :=
  let t1 := w32 (s.v7 + bsig1 s.v4 + shaCh s.v4 s.v5 s.v6 + kw.1 + kw.2)
  let t2 := w32 (bsig0 s.v0 + shaMaj s.v0 s.v1 s.v2)
  ⟨w32 (t1 + t2), s.v0, s.v1, s.v2, w32 (s.v3 + t1), s.v4, s.v5, s.v6⟩

def add8 (a b : Hash8) : Hash8 :=
  ⟨w32 (a.v0 + b.v0), w32 (a.v1 + b.v1), w32 (a.v2 + b.v2), w32 (a.v3 + b.v3),
   w32 (a.v4 + b.v4), w32 (a.v5 + b.v5), w32 (a.v6 + b.v6), w32 (a.v7 + b.v7)⟩

/-- Process one 16-word chunk. -/
def sha256Chunk (st : Hash8) (chunk : List Nat) : Hash8 :=
  add8 st ((sha256K.zip (sha256Schedule chunk)).foldl sha256Round st)

/-- Big-endian bytes (8 of them) of a natural number, most significant first. -/
def beBytes8 (n : Nat) : List Nat :=
  [n >>> 56 % 256, n >>> 48 % 256, n >>> 40 % 256, n >>> 32 % 256,
   n >>> 24 % 256, n >>> 16 % 256, n >>> 8 % 256, n % 256]

/-- SHA-256 padding: append 0x80, zeros to 56 mod 64, then the 64-bit bit length. -/
def padMsg (msg : List Nat) : List Nat :=
  msg ++ [128] ++ List.replicate ((119 - msg.length % 64) % 64) 0 ++ beBytes8 (8 * msg.length)

/-- Group bytes into big-endian 32-bit words. -/
def wordsOfBytes : List Nat → List Nat
  | b0 :: b1 :: b2 :: b3 :: rest =>
      (b0 * 16777216 + b1 * 65536 + b2 * 256 + b3) :: wordsOfBytes rest
  | _ => []

def chunksAux : Nat → List Nat → List (List Nat)
  | 0, _ => []
  | _ + 1, [] => []
  | fuel + 1, ws => ws.take 16 :: chunksAux fuel (ws.drop 16)

/-- Split a word list into chunks of 16 words. -/
def chunksOf16 (ws : List Nat) : List (List Nat) := chunksAux ws.length ws

def hexChar (n : Nat) : Char :=
  if n < 10 then Char.ofNat (48 + n) else Char.ofNat (87 + n)

/-- The eight lowercase-hex digits of one 32-bit word, most significant first. -/
def hexWord (w : Nat) : List Char :=
  [hexChar (w >>> 28 % 16), hexChar (w >>> 24 % 16), hexChar (w >>> 20 % 16),
   hexChar (w >>> 16 % 16), hexChar (w >>> 12 % 16), hexChar (w >>> 8 % 16),
   hexChar (w >>> 4 % 16), hexChar (w % 16)]

def hash8Hex (h : Hash8) : String :=
  String.mk (hexWord h.v0 ++ hexWord h.v1 ++ hexWord h.v2 ++ hexWord h.v3 ++
             hexWord h.v4 ++ hexWord h.v5 ++ hexWord h.v6 ++ hexWord h.v7)

/-- SHA-256 of a byte list, rendered as 64 lowercase hex characters
(the behaviour of Python `hashlib.sha256(...).hexdigest()`). -/
def sha256Hex (msg : List Nat) : String :=
  hash8Hex ((chunksOf16 (wordsOfBytes (padMsg msg))).foldl sha256Chunk sha256InitH)

/-- SHA-256 of the UTF-8 bytes of an ASCII string.  Every string the program
hashes is the output of the ASCII-only JSON serializer below (`json.dumps`
escapes all non-ASCII by default), so the UTF-8 bytes are the code points. -/
def sha256Ascii (s : String) : String :=
  sha256Hex (s.toList.map Char.toNat)

/-! ## The JSON serialization performed by `json.dumps(..., sort_keys=True)` -/

def hex4 (n : Nat) : List Char :=
  [hexChar (n >>> 12 % 16), hexChar (n >>> 8 % 16), hexChar (n >>> 4 % 16), hexChar (n % 16)]

/-- Escape one character the way `json.dumps` (default `ensure_ascii=True`)
does: two-character escapes for quote, backslash and the named controls,
`\uXXXX` for the remaining controls and all non-ASCII, surrogate pairs
above the BMP, and plain printable ASCII otherwise. -/
def jsonEscapeChar (c : Char) : List Char :=
  if c = '\"' then ['\\', '\"']
  else if c = '\\' then ['\\', '\\']
  else if c = '\x08' then ['\\', 'b']
  else if c = '\x09' then ['\\', 't']
  else if c = '\x0a' then ['\\', 'n']
  else if c = '\x0c' then ['\\', 'f']
  else if c = '\x0d' then ['\\', 'r']
  else if 32 ≤ c.toNat ∧ c.toNat ≤ 126 then [c]
  else if c.toNat < 65536 then '\\' :: 'u' :: hex4 c.toNat
  else
    ('\\' :: 'u' :: hex4 (55296 + (c.toNat - 65536) / 1024)) ++
    ('\\' :: 'u' :: hex4 (56320 + (c.toNat - 65536) % 1024))

/-- A JSON string literal, quotes included. -/
def jsonStr (s : String) : String :=
  String.mk ('\"' :: (s.toList.map jsonEscapeChar).flatten ++ ['\"'])

/-- One key/value item of a JSON object (`json.dumps` separates with a colon
and one space). -/
def kv (k v : String) : String := jsonStr k ++ ": " ++ v

/-- A JSON object from already-rendered items (`json.dumps` separates items
with a comma and one space). -/
def jsonObj (items : List String) : String :=
  "\x7b" ++ String.intercalate ", " items ++ "\x7d"

/-! ## The `Block` class -/

/-- A `Block` as it exists after `__init__` finished: all seven instance
attributes of the Python object. -/
structure Block where
  index : Nat
  data : String
  timestamp : String
  previous_hash : String
  nonce : Nat
  hash : String
  is_valid : Bool
deriving DecidableEq

/-- `json.dumps(self.__dict__, sort_keys=True)` as seen during `__init__`,
when only the five attributes `index, data, timestamp, previous_hash, nonce`
exist.  Sorted key order: data, index, nonce, previous_hash, timestamp. -/
def blockStringInit (index : Nat) (data timestamp previous_hash : String) (nonce : Nat) :
    String :=
  jsonObj [kv "data" (jsonStr data), kv "index" (Nat.repr index),
           kv "nonce" (Nat.repr nonce), kv "previous_hash" (jsonStr previous_hash),
           kv "timestamp" (jsonStr timestamp)]

/-- `json.dumps(self.__dict__, sort_keys=True)` after construction: all seven
attributes, sorted key order data, hash, index, is_valid, nonce,
previous_hash, timestamp. -/
def Block.blockString (b : Block) : String :=
  jsonObj [kv "data" (jsonStr b.data), kv "hash" (jsonStr b.hash),
           kv "index" (Nat.repr b.index),
           kv "is_valid" (if b.is_valid then "true" else "false"),
           kv "nonce" (Nat.repr b.nonce),
           kv "previous_hash" (jsonStr b.previous_hash),
           kv "timestamp" (jsonStr b.timestamp)]

/-- `Block.compute_hash` called on a fully constructed block: hashes all
seven attributes, the stored `hash` and `is_valid` included. -/
def Block.compute_hash (b : Block) : String :=
  sha256Ascii b.blockString

/-- `Block.compute_hash` as called from inside `__init__`, where `__dict__`
has only the five original fields. -/
def computeHashInit (index : Nat) (data timestamp previous_hash : String) (nonce : Nat) :
    String :=
  sha256Ascii (blockStringInit index data timestamp previous_hash nonce)

/-- `block.hash.startswith("0" * d)`. -/
def startsWithZeros (d : Nat) (s : String) : Bool :=
  (List.replicate d '0').isPrefixOf s.toList

/-- The `while` loop of `Block.proof_of_work`, abstracted over the digest
function (the digest of the surrounding `__dict__` at a given nonce): try
nonces upward from `nonce` until the digest has `d` leading zeros, with
explicit fuel standing in for the unbounded Python loop. -/
def powFrom (digest : Nat → String) (d : Nat) : Nat → Nat → Option (String × Nat)
  | 0, _ => none
  | fuel + 1, nonce =>
    if startsWithZeros d (digest nonce) then some (digest nonce, nonce)
    else powFrom digest d fuel (nonce + 1)

/-- The global `Blockchain.difficulty` class constant. -/
def difficulty : Nat := 3

/-- `Block.proof_of_work(d)` on a constructed block: resets the nonce to 0
and searches; each digest is computed over the full `__dict__`, in which
`hash` still holds its previous value throughout the search.  Returns the
satisfying digest and the nonce the search stopped at. -/
def Block.proof_of_work (b : Block) (d fuel : Nat) : Option (String × Nat) :=
  powFrom (fun n => Block.compute_hash {b with nonce := n}) d fuel 0

/-- `Block.__init__(index, data, timestamp, previous_hash)`: stores the four
fields, sets `nonce = 0`, runs proof-of-work over the five-field
`__dict__`, stores the result as `hash`, then sets `is_valid = True`. -/
def mkBlock (index : Nat) (data timestamp previous_hash : String) (fuel : Nat) :
    Option Block :=
  (powFrom (computeHashInit index data timestamp previous_hash) difficulty fuel 0).map
    (fun p => ⟨index, data, timestamp, previous_hash, p.2, p.1, true⟩)

/-- `Block.update_data(new_data)`: replace `data`, recompute `hash` once
(no proof-of-work; the `hash` key of the serialized `__dict__` still holds
the old digest), then force `is_valid = False`. -/
def Block.update_data (b : Block) (new_data : String) : Block :=
  let b1 := {b with data := new_data}
  let b2 := {b1 with hash := b1.compute_hash}
  {b2 with is_valid := false}

/-! ## The `Blockchain` class (the chain is its `chain` list) -/

/-- `Blockchain.is_block_valid(block)`: trusts the stored `hash`; checks the
difficulty prefix, the link to the stored hash of `chain[block.index - 1]`
(the sentinel "0" for the genesis block), and the block's own flag.  A
non-genesis index with no predecessor in the list would raise in Python and
cannot occur for blocks of the chain; the embedding returns `false` there. -/
def is_block_valid (chain : List Block) (b : Block) : Bool :=
  if b.index = 0 then
    startsWithZeros difficulty b.hash && (b.previous_hash == "0") && b.is_valid
  else
    match chain.get? (b.index - 1) with
    | some prev =>
        startsWithZeros difficulty b.hash && (b.previous_hash == prev.hash) && b.is_valid
    | none => false

/-- `Blockchain.is_chain_valid()`: every block passes `is_block_valid`. -/
def is_chain_valid (chain : List Block) : Bool :=
  chain.all (is_block_valid chain)

/-- `Blockchain.create_genesis_block()` (with `Blockchain.__init__`'s empty
chain): build `Block(0, "Genesis Block", now, "0")`, re-run proof-of-work on
the constructed block (its `__dict__` now has seven keys, `hash` holding the
digest found inside `__init__`), store the new digest, and produce the
one-element chain. -/
def create_genesis_block (ts : String) (fuel : Nat) : Option (List Block) :=
  (mkBlock 0 "Genesis Block" ts "0" fuel).bind fun g =>
    (g.proof_of_work difficulty fuel).map fun p =>
      [{g with hash := p.1, nonce := p.2}]

/-- The assignment `new_block.is_valid = self.is_block_valid(new_block)` of
`add_block`, on the block as it stands after its hash was stored. -/
def withFlag (chain : List Block) (b1 : Block) : Block :=
  {b1 with is_valid := is_block_valid chain b1}

/-- `Blockchain.add_block(data)`: build a block at index `len(chain)` linked
to the last block's stored hash, re-run proof-of-work on the constructed
block, store the result, set its flag from `is_block_valid`, append. -/
def add_block (chain : List Block) (data ts : String) (fuel : Nat) :
    Option (List Block) :=
  match chain.getLast? with
  | none => none
  | some last =>
    (mkBlock chain.length data ts last.hash fuel).bind fun b =>
      (b.proof_of_work difficulty fuel).map fun p =>
        chain ++ [withFlag chain {b with hash := p.1, nonce := p.2}]

/-- Genesis creation followed by a sequence of `add_block` calls (the honest
construction of §8 of the spec); each item is a data/timestamp pair. -/
def buildChain (ts : String) (items : List (String × String)) (fuel : Nat) :
    Option (List Block) :=
  (create_genesis_block ts fuel).bind fun c =>
    items.foldlM (fun c p => add_block c p.1 p.2 fuel) c

/-! ## The HTTP routes that mutate or read the chain -/

/-- The outcomes of the `/update_data` route's JSON responses. -/
inductive TamperResponse where
  | genesisProtected
  | noChange
  | success
  | indexOutOfRange
deriving DecidableEq

/-- Python list indexing: nonnegative positions directly, negative positions
from the end, `none` when the access would raise `IndexError`. -/
def pyIdx (i : Int) (n : Nat) : Option Nat :=
  if 0 ≤ i then (if i < (n : Int) then some i.toNat else none)
  else if -i ≤ (n : Int) then some (n - (-i).toNat) else none

/-- Python `range(a, b)` over integers. -/
def pyRange (a b : Int) : List Int :=
  (List.range (b - a).toNat).map (fun (k : Nat) => a + (k : Int))

/-- `blockchain.chain[i].is_valid = False` for an integer `i` (Python
indexing; the route only reaches positions that exist). -/
def pySetInvalid (chain : List Block) (i : Int) : List Block :=
  match pyIdx i chain.length with
  | some p =>
    match chain.get? p with
    | some b => chain.set p {b with is_valid := false}
    | none => chain
  | none => chain

/-- The cascading loop `for i in range(block_index + 1, len(chain))`. -/
def cascade (chain : List Block) (is : List Int) : List Block :=
  is.foldl pySetInvalid chain

/-- The `/update_data` route: genesis guard on the raw integer, then the
Python comparison `block_index < len(chain)` (true for every negative
index), lookup with Python indexing (`none` models the uncaught
`IndexError` for `block_index < -len(chain)`), the no-change check, the
per-block tamper and the cascading invalidation. -/
def update_data_route (chain : List Block) (block_index : Int) (new_data : String) :
    Option (TamperResponse × List Block) :=
  if block_index = 0 then some (TamperResponse.genesisProtected, chain)
  else if block_index < (chain.length : Int) then
    match pyIdx block_index chain.length with
    | none => none
    | some pos =>
      match chain.get? pos with
      | none => none
      | some b =>
        if new_data ≠ b.data then
          some (TamperResponse.success,
                cascade (chain.set pos (b.update_data new_data))
                        (pyRange (block_index + 1) chain.length))
        else some (TamperResponse.noChange, chain)
  else some (TamperResponse.indexOutOfRange, chain)

/-- The `/chain` route (snapshot): `block_info = block.__dict__` aliases the
block, so the assignment `block_info["is_valid"] = is_block_valid(block)`
writes into the block itself, sequentially along the list; the state of the
chain after the route is the returned value here. -/
def snapshotStep (c : List Block) (k : Nat) : List Block :=
  match c.get? k with
  | some b => c.set k {b with is_valid := is_block_valid c b}
  | none => c

def get_chain (chain : List Block) : List Block :=
  (List.range chain.length).foldl snapshotStep chain

/-- One exposed state-changing operation: the mine route (`add_block`), the
tamper route, or the snapshot route.  Validation routes do not change the
chain (they are pure functions in the source). -/
inductive ChainStep : List Block → List Block → Prop where
  | mine (c : List Block) (data ts : String) (fuel : Nat) (c' : List Block) :
      add_block c data ts fuel = some c' → ChainStep c c'
  | tamper (c : List Block) (i : Int) (nd : String) (r : TamperResponse)
      (c' : List Block) : update_data_route c i nd = some (r, c') → ChainStep c c'
  | snapshot (c : List Block) : ChainStep c (get_chain c)

/-- The chain states reachable from process start (`Blockchain()` mines the
genesis block) through the exposed routes. -/
inductive Reachable : List Block → Prop where
  | genesis (ts : String) (fuel : Nat) (c : List Block) :
      create_genesis_block ts fuel = some c → Reachable c
  | step (c c' : List Block) : Reachable c → ChainStep c c' → Reachable c'

/-! ## Invariants and concrete states used by the development -/

/-- The invariant of honestly built chains. -/
def HonestInv (c : List Block) : Prop :=
  c ≠ [] ∧
  (∀ i b, c.get? i = some b →
    b.index = i ∧ b.is_valid = true ∧ startsWithZeros difficulty b.hash = true) ∧
  (∀ b0, c.get? 0 = some b0 → b0.previous_hash = "0") ∧
  (∀ i bi bp, c.get? (i + 1) = some bi → c.get? i = some bp →
    bi.previous_hash = bp.hash)

/-- The invariant: block indices match positions, and the per-block check
agrees with every block's stored flag. -/
def ValidInv (c : List Block) : Prop :=
  (∀ i b, c.get? i = some b → b.index = i) ∧
  (∀ i b, c.get? i = some b → is_block_valid c b = b.is_valid)

/-! ## Concrete blocks and chains used at witness and counterexample inputs
(their field values are arbitrary except where a digest matters) -/

/-- A block state before a `proof_of_work` re-run; its data "d8" is chosen so
the difficulty-1 search succeeds immediately at nonce 0. -/
def cexMineBlock : Block := ⟨1, "d8", "t", "p", 0, "h", true⟩

/-- `cexMineBlock` after `hash = proof_of_work(1)` stored its result. -/
def cexMineStored : Block :=
  ⟨1, "d8", "t", "p", 0,
   "0e28a22c3ff562fc8612b4e2fed7773a5627d5fa3a3f7e9483524e18761f4052", true⟩

/-- A two-block chain with arbitrary field values (the tamper routes never
check stored hashes). -/
def blkA : Block := ⟨0, "Genesis Block", "t0", "0", 4, "ha", true⟩

def blkB : Block := ⟨1, "bee", "t1", "ha", 9, "hb", true⟩

def cexChain : List Block := [blkA, blkB]


/-- A block concretely invalid, for the witness below. -/
def blkBInvalid : Block := ⟨1, "bee", "t1", "ha", 9, "hb", false⟩

def cexC9 : List Block := [blkA, blkBInvalid]

/-- The chain produced by genesis creation at timestamp "T6812331" — chosen
because both proof-of-work searches (the five-field one inside `__init__`
and the seven-field re-run) succeed already at nonce 0, keeping the
evaluation small.  The stored hash is the seven-field digest. -/
def luckyChain : List Block :=
  [⟨0, "Genesis Block", "T6812331", "0", 0,
    "0009267f1cebc8ced8919ec734b2419996979eff3f657e887398f3868ec0b738", true⟩]

end App

/-! ## SHA-256 test vectors (NIST / hashlib cross-checks) -/

/-- Sanity: SHA-256 of "abc" matches the NIST test vector. -/
theorem App.sha256_abc :
    App.sha256Ascii "abc" =
      "ba7816bf8f01cfea414140de5dae2223b00361a396177a9cb410ff61f20015ad" := by
  decide

/-- Sanity: SHA-256 of the empty message matches the NIST test vector. -/
theorem App.sha256_empty :
    App.sha256Ascii "" =
      "e3b0c44298fc1c149afbf4c8996fb92427ae41e4649b934ca495991b7852b855" := by
  decide

/-- Sanity: the serialized five-field dictionary, escapes included, matches
`json.dumps` on a payload containing a quote, a backslash and a newline. -/
theorem App.blockStringInit_sample :
    App.blockStringInit 7 "a\"b\\c\nd" "T" "0" 3 =
      "\x7b\"data\": \"a\\\"b\\\\c\\nd\", \"index\": 7, \"nonce\": 3, \"previous_hash\": \"0\", \"timestamp\": \"T\"\x7d" := by
  decide

/-- Sanity: the five-field digest matches `hashlib` on the same sample. -/
theorem App.computeHashInit_sample :
    App.computeHashInit 7 "a\"b\\c\nd" "T" "0" 3 =
      "27b39c93ae10020298ea719793bfb5fe374c8481a0a9d6cb3106736e4dc34305" := by
  decide

/-- Sanity: the seven-field digest matches `hashlib` on a sample block. -/
theorem App.compute_hash_sample :
    App.Block.compute_hash ⟨2, "x", "ts", "ph", 5, "hh", false⟩ =
      "4501e35c2f591c39528ea59b5955d86c2e8cf721f1657dd5dc7d541d0c00e5b0" := by
  decide

/-! ## Small list helpers (named locally to stay independent of library renames) -/

namespace App

theorem get?_some_lt {α : Type} :
    ∀ (l : List α) (i : Nat) (a : α), l.get? i = some a → i < l.length
  | [], i, a, h => by simp at h
  | _ :: _, 0, _, _ => by simp
  | _ :: xs, i + 1, a, h => by
    simpa using Nat.succ_lt_succ (get?_some_lt xs i a (by simpa using h))

theorem get?_set_same {α : Type} :
    ∀ (l : List α) (i : Nat) (a : α), i < l.length → (l.set i a).get? i = some a
  | [], i, a, h => by simp at h
  | _ :: _, 0, _, _ => by simp
  | x :: xs, i + 1, a, h => by
    simpa using get?_set_same xs i a (Nat.lt_of_succ_lt_succ (by simpa using h))

theorem get?_set_ne {α : Type} :
    ∀ (l : List α) (i j : Nat) (a : α), i ≠ j → (l.set i a).get? j = l.get? j
  | [], _, _, _, _ => by simp
  | _ :: _, 0, 0, _, h => absurd rfl h
  | _ :: _, 0, _ + 1, _, _ => by simp
  | _ :: _, _ + 1, 0, _, _ => by simp
  | _ :: xs, i + 1, j + 1, a, h => by
    simpa using get?_set_ne xs i j a (fun e => h (by simpa using e))

theorem set_get?_self {α : Type} :
    ∀ (l : List α) (i : Nat) (a : α), l.get? i = some a → l.set i a = l
  | [], _, _, h => by simp at h
  | _ :: _, 0, _, h => by simpa using (by simpa using h : _ = _).symm ▸ rfl
  | x :: xs, i + 1, a, h => by
    simpa using set_get?_self xs i a (by simpa using h)

theorem get?_append_lt {α : Type} :
    ∀ (l l2 : List α) (i : Nat), i < l.length → (l ++ l2).get? i = l.get? i
  | [], _, _, h => by simp at h
  | _ :: _, _, 0, _ => by simp
  | x :: xs, l2, i + 1, h => by
    simpa using get?_append_lt xs l2 i (Nat.lt_of_succ_lt_succ (by simpa using h))

end App

namespace App

/-! ## The proof-of-work loop -/

/-- What the `while` loop guarantees when it terminates: the returned digest
has the required zero prefix and is the digest function at the returned
nonce. -/
theorem powFrom_eq (digest : Nat → String) (d : Nat) :
    ∀ (fuel k : Nat) (h : String) (n : Nat), powFrom digest d fuel k = some (h, n) →
      startsWithZeros d h = true ∧ h = digest n
  | 0, _, _, _, hp => by simp [powFrom] at hp
  | fuel + 1, k, h, n, hp => by
    by_cases hz : startsWithZeros d (digest k) = true
    · simp [powFrom, hz] at hp
      obtain ⟨h1, h2⟩ := hp
      subst h2
      exact ⟨h1 ▸ hz, h1.symm⟩
    · simp [powFrom, hz] at hp
      exact powFrom_eq digest d fuel (k + 1) h n hp

/-- Unpacking `Block.__init__`: the constructed block carries the four
stored fields, nonce and hash from the five-field search, flag true. -/
theorem mkBlock_eq (index : Nat) (data ts prev : String) (fuel : Nat) (b : Block)
    (hm : mkBlock index data ts prev fuel = some b) :
    b.index = index ∧ b.data = data ∧ b.timestamp = ts ∧ b.previous_hash = prev ∧
    b.is_valid = true ∧ startsWithZeros difficulty b.hash = true ∧
    b.hash = computeHashInit index data ts prev b.nonce := by
  simp only [mkBlock, Option.map_eq_some'] at hm
  obtain ⟨p, hp, rfl⟩ := hm
  obtain ⟨hz, he⟩ := powFrom_eq _ difficulty fuel 0 p.1 p.2 hp
  exact ⟨rfl, rfl, rfl, rfl, rfl, hz, he⟩

end App

/-! ## C1: what `compute_hash` is a function of -/

/-- C1 (counterexample): `compute_hash` is NOT a function of only
`(index, data, timestamp, previous_hash, nonce)` — two blocks agreeing on
those five fields but storing different `hash` attributes hash to different
digests, because the serialized `__dict__` contains the `hash` key. -/
theorem App.compute_hash_uses_stored_hash :
    App.Block.compute_hash ⟨0, "a", "t", "0", 0, "x", true⟩ ≠
      App.Block.compute_hash ⟨0, "a", "t", "0", 0, "y", true⟩ := by
  decide

/-- C1 (amended): `compute_hash` is a deterministic pure function of the
block's full attribute dictionary — the five original fields TOGETHER WITH
the stored `hash` and `is_valid`; two calls on blocks agreeing on all seven
attributes return the same lowercase-hex SHA-256 digest. -/
theorem App.compute_hash_deterministic (b1 b2 : App.Block)
    (h : b1.index = b2.index ∧ b1.data = b2.data ∧ b1.timestamp = b2.timestamp ∧
         b1.previous_hash = b2.previous_hash ∧ b1.nonce = b2.nonce ∧
         b1.hash = b2.hash ∧ b1.is_valid = b2.is_valid) :
    b1.compute_hash = b2.compute_hash := by
  obtain ⟨h1, h2, h3, h4, h5, h6, h7⟩ := h
  cases b1
  cases b2
  simp_all

/-- C1 (witness): the determinism theorem applied at two concrete blocks
agreeing on all seven attributes. -/
theorem App.compute_hash_deterministic_witness :
    App.Block.compute_hash ⟨2, "x", "ts", "ph", 5, "hh", false⟩ =
      App.Block.compute_hash ⟨2, "x", "ts", "ph", 5, "hh", false⟩ :=
  App.compute_hash_deterministic _ _ ⟨rfl, rfl, rfl, rfl, rfl, rfl, rfl⟩

/-! ## C2: what `proof_of_work` guarantees about the stored hash -/

/-- C2 (counterexample): `proof_of_work(1)` on `cexMineBlock` succeeds at
nonce 0 and its result is stored (`cexMineStored`), but recomputing the
digest of the stored block at the stored nonce does NOT reproduce the
stored hash: the digest input contains the `hash` attribute itself, which
the assignment just replaced. -/
theorem App.mine_not_reproducible :
    App.cexMineBlock.proof_of_work 1 3 =
      some (App.cexMineStored.hash, App.cexMineStored.nonce) ∧
    App.cexMineStored.compute_hash ≠ App.cexMineStored.hash := by
  constructor
  · decide
  · decide

/-- C2 (amended): when `proof_of_work(d)` completes, the digest it returns
(which the callers store into `hash`) has at least `d` leading '0' hex
characters, and it equals the digest of the block at the stored nonce AS IT
STOOD DURING MINING — with the `hash` attribute still holding its previous
value.  (Recomputing the digest after the result is stored generally gives
a different value, since storing overwrites that attribute: see the
counterexample.)  Genesis creation and append store exactly such a result
at difficulty 3. -/
theorem App.mine_spec (b : App.Block) (d fuel : Nat) (h : String) (n : Nat)
    (hp : b.proof_of_work d fuel = some (h, n)) :
    App.startsWithZeros d h = true ∧
    h = App.Block.compute_hash {b with nonce := n} := by
  exact App.powFrom_eq (fun k => App.Block.compute_hash {b with nonce := k}) d fuel 0 h n hp

/-- C2 (witness): the mining spec applied to the concrete difficulty-1
search of `cexMineBlock`. -/
theorem App.mine_spec_witness :
    App.startsWithZeros 1 App.cexMineStored.hash = true ∧
    App.cexMineStored.hash =
      App.Block.compute_hash {App.cexMineBlock with nonce := App.cexMineStored.nonce} :=
  App.mine_spec App.cexMineBlock 1 3 App.cexMineStored.hash App.cexMineStored.nonce
    (by decide)

/-! ## C6: genesis protection -/

/-- C6: for every chain state and every payload, tampering at index 0 takes
the genesis-guard branch: the route answers `genesisProtected` and returns
the chain unchanged. -/
theorem App.genesis_protection (chain : List App.Block) (new_data : String) :
    App.update_data_route chain 0 new_data =
      some (App.TamperResponse.genesisProtected, chain) := by
  simp [App.update_data_route]

namespace App

/-! ## Route and cascade helper lemmas -/

theorem get?_mem {α : Type} :
    ∀ (l : List α) (i : Nat) (a : α), l.get? i = some a → a ∈ l
  | [], i, a, h => by simp at h
  | x :: xs, 0, a, h => by simp at h; simp [h]
  | x :: xs, i + 1, a, h => List.mem_cons_of_mem x (get?_mem xs i a (by simpa using h))

theorem get?_isSome_of_lt {α : Type} :
    ∀ (l : List α) (j : Nat), j < l.length → ∃ a, l.get? j = some a
  | [], j, h => by simp at h
  | x :: xs, 0, _ => ⟨x, rfl⟩
  | x :: xs, j + 1, h => by
    simpa using get?_isSome_of_lt xs j (Nat.lt_of_succ_lt_succ (by simpa using h))

theorem pyIdx_natCast (i n : Nat) (h : i < n) : pyIdx (i : Int) n = some i := by
  simp [pyIdx, h]

theorem pyIdx_pos_eq (x : Int) (n : Nat) (h0 : 0 ≤ x) (hl : x < (n : Int)) :
    pyIdx x n = some x.toNat := by
  simp [pyIdx, h0, hl]

theorem pyIdx_lt (x : Int) (n p : Nat) (h : pyIdx x n = some p) : p < n := by
  unfold pyIdx at h
  split at h
  · split at h
    · cases h
      omega
    · cases h
  · split at h
    · cases h
      rename_i h1 h2
      omega
    · cases h

theorem mem_pyRange (a b x : Int) (hx : x ∈ pyRange a b) : a ≤ x ∧ x < b := by
  unfold pyRange at hx
  rw [List.mem_map] at hx
  obtain ⟨k, hk, rfl⟩ := hx
  rw [List.mem_range] at hk
  omega

theorem pyRange_mem_of (a b x : Int) (h1 : a ≤ x) (h2 : x < b) : x ∈ pyRange a b := by
  unfold pyRange
  simp
  exact ⟨(x - a).toNat, by omega, by omega⟩

theorem pySetInvalid_length (c : List Block) (x : Int) :
    (pySetInvalid c x).length = c.length := by
  unfold pySetInvalid
  split
  · split
    · simp
    · rfl
  · rfl

theorem cascade_length (is : List Int) (c : List Block) :
    (cascade c is).length = c.length := by
  induction is generalizing c with
  | nil => rfl
  | cons x xs ih =>
    show (cascade (pySetInvalid c x) xs).length = c.length
    rw [ih, pySetInvalid_length]

theorem pySetInvalid_get? (c : List Block) (x : Int) (j : Nat) :
    (pySetInvalid c x).get? j = c.get? j ∨
    ∃ b, c.get? j = some b ∧
      (pySetInvalid c x).get? j = some {b with is_valid := false} := by
  cases hpi : pyIdx x c.length with
  | none => left; simp only [pySetInvalid, hpi]
  | some p =>
    cases hbg : c.get? p with
    | none => left; simp only [pySetInvalid, hpi, hbg]
    | some b =>
      by_cases hj : p = j
      · subst hj
        right
        refine ⟨b, hbg, ?_⟩
        simp only [pySetInvalid, hpi, hbg]
        exact get?_set_same c p _ (get?_some_lt c p b hbg)
      · left
        simp only [pySetInvalid, hpi, hbg]
        exact get?_set_ne c p j _ hj

theorem cascade_get? (is : List Int) (c : List Block) (j : Nat) :
    (cascade c is).get? j = c.get? j ∨
    ∃ b, c.get? j = some b ∧
      (cascade c is).get? j = some {b with is_valid := false} := by
  induction is generalizing c with
  | nil => left; rfl
  | cons x xs ih =>
    have hg : cascade c (x :: xs) = cascade (pySetInvalid c x) xs := rfl
    have step := pySetInvalid_get? c x j
    rcases ih (pySetInvalid c x) with hr | ⟨b1, hb1, hr⟩
    · rcases step with hs | ⟨b, hbj, hs⟩
      · left
        rw [hg, hr, hs]
      · right
        exact ⟨b, hbj, by rw [hg, hr, hs]⟩
    · rcases step with hs | ⟨b, hbj, hs⟩
      · right
        refine ⟨b1, ?_, ?_⟩
        · rw [← hs]
          exact hb1
        · rw [hg]
          exact hr
      · right
        rw [hb1] at hs
        cases hs
        refine ⟨b, hbj, ?_⟩
        rw [hg]
        exact hr

theorem cascade_preserves_invalid (is : List Int) (c : List Block) (j : Nat)
    (h : ∀ b, c.get? j = some b → b.is_valid = false) :
    ∀ b', (cascade c is).get? j = some b' → b'.is_valid = false := by
  intro b' hb'
  rcases cascade_get? is c j with he | ⟨b, hbj, he⟩
  · exact h b' (he ▸ hb')
  · rw [he] at hb'
    cases hb'
    rfl

theorem pySetInvalid_invalid (c : List Block) (y : Int) (j : Nat)
    (hj : pyIdx y c.length = some j) :
    ∀ b', (pySetInvalid c y).get? j = some b' → b'.is_valid = false := by
  intro b' hb'
  cases hbg : c.get? j with
  | none =>
    simp only [pySetInvalid, hj, hbg] at hb'
    cases hb'
  | some b =>
    simp only [pySetInvalid, hj, hbg] at hb'
    rw [get?_set_same c j _ (get?_some_lt c j b hbg)] at hb'
    cases hb'
    rfl

theorem cascade_invalid :
    ∀ (is : List Int) (c : List Block) (x : Int) (j : Nat),
      x ∈ is → pyIdx x c.length = some j →
      ∀ b', (cascade c is).get? j = some b' → b'.is_valid = false := by
  intro is
  induction is with
  | nil => intro c x j hx; simp at hx
  | cons y ys ih =>
    intro c x j hx hj b' hb'
    rcases List.mem_cons.mp hx with rfl | hx'
    · exact cascade_preserves_invalid ys (pySetInvalid c x) j
        (pySetInvalid_invalid c x j hj) b' hb'
    · exact ih (pySetInvalid c y) x j hx'
        (by rw [pySetInvalid_length]; exact hj) b' hb'

theorem cascade_untouched (is : List Int) (c : List Block) (j : Nat)
    (h : ∀ x ∈ is, pyIdx x c.length ≠ some j) :
    (cascade c is).get? j = c.get? j := by
  induction is generalizing c with
  | nil => rfl
  | cons x xs ih =>
    have h1 : pyIdx x c.length ≠ some j := h x (List.mem_cons_self x xs)
    have step : (pySetInvalid c x).get? j = c.get? j := by
      cases hpi : pyIdx x c.length with
      | none => simp only [pySetInvalid, hpi]
      | some p =>
        cases hbg : c.get? p with
        | none => simp only [pySetInvalid, hpi, hbg]
        | some b =>
          simp only [pySetInvalid, hpi, hbg]
          exact get?_set_ne c p j _ (fun e => h1 (e ▸ hpi))
    show (cascade (pySetInvalid c x) xs).get? j = c.get? j
    rw [ih (pySetInvalid c x)
      (by intro y hy; rw [pySetInvalid_length]; exact h y (List.mem_cons_of_mem x hy)), step]

theorem is_block_valid_flag_false (c : List Block) (b : Block)
    (h : b.is_valid = false) : is_block_valid c b = false := by
  unfold is_block_valid
  split
  · simp [h]
  · split
    · simp [h]
    · rfl

theorem is_chain_valid_false_of (c : List Block) (b : Block) (hm : b ∈ c)
    (hf : is_block_valid c b = false) : is_chain_valid c = false := by
  unfold is_chain_valid
  cases hall : c.all (is_block_valid c) with
  | false => rfl
  | true => exact absurd (List.all_eq_true.mp hall b hm) (by simp [hf])

/-- The success branch of the tamper route at a positive in-range index. -/
theorem route_tamper_eq (chain : List Block) (i : Nat) (nd : String) (b : Block)
    (h0 : 0 < i) (hb : chain.get? i = some b) (hne : nd ≠ b.data) :
    update_data_route chain (i : Int) nd =
      some (TamperResponse.success,
        cascade (chain.set i (b.update_data nd))
                (pyRange ((i : Int) + 1) chain.length)) := by
  have hlen := get?_some_lt chain i b hb
  have hi0 : ((i : Nat) : Int) ≠ 0 := by exact_mod_cast h0.ne'
  have hil : ((i : Nat) : Int) < (chain.length : Int) := by exact_mod_cast hlen
  have hb2 := hb
  rw [List.get?_eq_getElem?] at hb2
  simp [update_data_route, hi0, hil, pyIdx_natCast i chain.length hlen, hb, hb2, hne]

end App

/-! ## C7: no-op tamper -/

/-- C7: tampering at a positive in-range index with the block's current data
answers `noChange` and returns the chain unchanged (so every field of every
block, flags, hashes and nonces included, is as before). -/
theorem App.noop_tamper (chain : List App.Block) (i : Nat) (b : App.Block)
    (h0 : 0 < i) (hb : chain.get? i = some b) :
    App.update_data_route chain (i : Int) b.data =
      some (App.TamperResponse.noChange, chain) := by
  have hlen := App.get?_some_lt chain i b hb
  have hi0 : ((i : Nat) : Int) ≠ 0 := by exact_mod_cast h0.ne'
  have hil : ((i : Nat) : Int) < (chain.length : Int) := by exact_mod_cast hlen
  have hb2 := hb
  rw [List.get?_eq_getElem?] at hb2
  simp [App.update_data_route, hi0, hil, App.pyIdx_natCast i chain.length hlen, hb, hb2]

/-- C7 (witness): no-op tamper at index 1 of the concrete two-block chain. -/
theorem App.noop_tamper_witness :
    App.update_data_route App.cexChain ((1 : Nat) : Int) App.blkB.data =
      some (App.TamperResponse.noChange, App.cexChain) :=
  App.noop_tamper App.cexChain 1 App.blkB (by decide) (by decide)

/-! ## C8: the per-block validity check -/

/-- C8: `is_block_valid` is a pure function; for the genesis index it is
exactly prefix AND sentinel-linkage AND flag; for a non-genesis block whose
predecessor is `prev` it is exactly prefix AND linkage to `prev`'s stored
hash AND flag; and it never recomputes the digest — its value is unchanged
under arbitrary replacement of the digest inputs `data`, `timestamp`,
`nonce` while `hash`, `previous_hash`, `index`, `is_valid` are kept. -/
theorem App.is_block_valid_spec (chain : List App.Block) (b : App.Block) :
    (b.index = 0 →
      App.is_block_valid chain b =
        (App.startsWithZeros App.difficulty b.hash &&
         (b.previous_hash == "0") && b.is_valid)) ∧
    (∀ prev, b.index ≠ 0 → chain.get? (b.index - 1) = some prev →
      App.is_block_valid chain b =
        (App.startsWithZeros App.difficulty b.hash &&
         (b.previous_hash == prev.hash) && b.is_valid)) ∧
    (∀ d t n, App.is_block_valid chain
        ⟨b.index, d, t, b.previous_hash, n, b.hash, b.is_valid⟩ =
      App.is_block_valid chain b) := by
  refine ⟨?_, ?_, ?_⟩
  · intro h0
    simp [App.is_block_valid, h0]
  · intro prev hne hp
    simp only [App.is_block_valid, if_neg hne, hp]
  · intro d t n
    simp only [App.is_block_valid]

/-- C8 (witness): the non-genesis branch of the spec at a concrete block. -/
theorem App.is_block_valid_spec_witness :
    App.is_block_valid App.cexChain App.blkB =
      (App.startsWithZeros App.difficulty App.blkB.hash &&
       (App.blkB.previous_hash == App.blkA.hash) && App.blkB.is_valid) :=
  (App.is_block_valid_spec App.cexChain App.blkB).2.1 App.blkA (by decide) (by decide)

/-! ## C3: out-of-range and negative tamper indices -/

/-- C3 (the code at the failing input): tampering with the Python index `-2`
on the two-block chain is NOT rejected: negative indexing reaches the
genesis block (position 0), overwrites its data with "X", and the cascade
loop `range(-1, 2)` forces every flag false.  The claim (and the route's
own genesis guard) says such an index should be rejected with no change. -/
theorem App.negative_index_tamper :
    (App.update_data_route App.cexChain (-2) "X").map Prod.fst =
      some App.TamperResponse.success ∧
    (App.update_data_route App.cexChain (-2) "X").map
        (fun p => p.2.map (fun b => (b.data, b.is_valid))) =
      some [("X", false), ("bee", false)] := by
  constructor
  · decide
  · decide

/-! ## C4: cascading invalidation -/

/-- C4: tampering at a positive in-range index `i` with data different from
the block's current data replaces that block's data, recomputes its hash
without proof-of-work, forces its flag false, forces the flag of every
later block false, leaves every block before `i` untouched, and makes the
whole-chain check fail. -/
theorem App.cascading_invalidation (chain : List App.Block) (i : Nat) (nd : String)
    (b : App.Block) (h0 : 0 < i) (hb : chain.get? i = some b) (hne : nd ≠ b.data) :
    ∃ c', App.update_data_route chain (i : Int) nd =
        some (App.TamperResponse.success, c') ∧
      c'.length = chain.length ∧
      c'.get? i = some (b.update_data nd) ∧
      (b.update_data nd).data = nd ∧
      (b.update_data nd).is_valid = false ∧
      (b.update_data nd).hash = App.Block.compute_hash {b with data := nd} ∧
      (∀ j, j < i → c'.get? j = chain.get? j) ∧
      (∀ j bj, i < j → c'.get? j = some bj → bj.is_valid = false) ∧
      App.is_chain_valid c' = false := by
  have hlen := App.get?_some_lt chain i b hb
  set mid := chain.set i (b.update_data nd) with hmid
  set rng := App.pyRange ((i : Int) + 1) chain.length with hrng
  set c' := App.cascade mid rng with hc'
  have hmidlen : mid.length = chain.length := by
    rw [hmid]; exact List.length_set chain i _
  have hclen : c'.length = chain.length := by
    rw [hc', App.cascade_length, hmidlen]
  -- positions touched by the cascade are exactly i+1 .. length-1
  have hrng_pos : ∀ x ∈ rng, ∀ p, App.pyIdx x mid.length = some p → i < p ∧ p < chain.length := by
    intro x hx p hp
    obtain ⟨hx1, hx2⟩ := App.mem_pyRange _ _ x hx
    have h0x : 0 ≤ x := by omega
    rw [App.pyIdx_pos_eq x mid.length h0x (by rw [hmidlen]; omega)] at hp
    cases hp
    constructor
    · omega
    · omega
  have huntouched : ∀ j, j ≤ i → c'.get? j = mid.get? j := by
    intro j hj
    rw [hc']
    apply App.cascade_untouched
    intro x hx hcon
    obtain ⟨hgt, _⟩ := hrng_pos x hx j hcon
    omega
  refine ⟨c', ?_, hclen, ?_, rfl, rfl, rfl, ?_, ?_, ?_⟩
  · exact App.route_tamper_eq chain i nd b h0 hb hne
  · rw [huntouched i (Nat.le_refl i), hmid]
    exact App.get?_set_same chain i _ hlen
  · intro j hj
    rw [huntouched j (Nat.le_of_lt hj), hmid]
    exact App.get?_set_ne chain i j _ (by omega)
  · intro j bj hij hbj
    have hjlen : j < chain.length := by
      have := App.get?_some_lt c' j bj hbj
      omega
    have hxmem : ((j : Nat) : Int) ∈ rng := by
      rw [hrng]
      apply App.pyRange_mem_of
      · omega
      · exact_mod_cast hjlen
    have hidx : App.pyIdx ((j : Nat) : Int) mid.length = some j := by
      rw [hmidlen]
      exact App.pyIdx_natCast j chain.length hjlen
    exact App.cascade_invalid rng mid (j : Int) j hxmem hidx bj (hc' ▸ hbj)
  · have hbi : c'.get? i = some (b.update_data nd) := by
      rw [huntouched i (Nat.le_refl i), hmid]
      exact App.get?_set_same chain i _ hlen
    exact App.is_chain_valid_false_of c' (b.update_data nd)
      (App.get?_mem c' i _ hbi) (App.is_block_valid_flag_false c' _ rfl)

/-- C4 (witness): tampering block 1 of the concrete two-block chain with
fresh data "X". -/
theorem App.cascading_invalidation_witness :
    ∃ c', App.update_data_route App.cexChain ((1 : Nat) : Int) "X" =
        some (App.TamperResponse.success, c') ∧
      c'.length = App.cexChain.length ∧
      c'.get? 1 = some (App.blkB.update_data "X") ∧
      (App.blkB.update_data "X").data = "X" ∧
      (App.blkB.update_data "X").is_valid = false ∧
      (App.blkB.update_data "X").hash =
        App.Block.compute_hash {App.blkB with data := "X"} ∧
      (∀ j, j < 1 → c'.get? j = App.cexChain.get? j) ∧
      (∀ j bj, 1 < j → c'.get? j = some bj → bj.is_valid = false) ∧
      App.is_chain_valid c' = false :=
  App.cascading_invalidation App.cexChain 1 "X" App.blkB (by decide) (by decide)
    (by decide)

namespace App

/-! ## Monotonicity of invalidity under each route -/

/-- The tamper route, whatever its outcome, leaves every position either
unchanged or holding a block whose flag is false. -/
theorem route_result_get? (c : List Block) (i : Int) (nd : String)
    (r : TamperResponse) (c' : List Block)
    (h : update_data_route c i nd = some (r, c')) (j : Nat) :
    c'.get? j = c.get? j ∨ ∀ b', c'.get? j = some b' → b'.is_valid = false := by
  unfold update_data_route at h
  split at h
  · cases h
    left
    rfl
  · split at h
    · split at h
      · cases h
      · split at h
        · cases h
        · rename_i x1 pos hpi x2 b hbg
          split at h
          · cases h
            rcases cascade_get? (pyRange (i + 1) c.length)
                (c.set pos (b.update_data nd)) j with hcg | ⟨bb, hbb, hcg⟩
            · by_cases hjp : pos = j
              · subst hjp
                right
                intro b' hb'
                rw [hcg, get?_set_same c pos _ (get?_some_lt c pos b hbg)] at hb'
                cases hb'
                rfl
              · left
                rw [hcg]
                exact get?_set_ne c pos j _ hjp
            · right
              intro b' hb'
              rw [hcg] at hb'
              cases hb'
              rfl
          · cases h
            left
            rfl
    · cases h
      left
      rfl

/-- One snapshot assignment cannot turn a false flag at position `j` true. -/
theorem snapshotStep_invalid (c : List Block) (k j : Nat)
    (h : ∀ b, c.get? j = some b → b.is_valid = false) :
    ∀ b', (snapshotStep c k).get? j = some b' → b'.is_valid = false := by
  intro b' hb'
  cases hck : c.get? k with
  | none =>
    simp only [snapshotStep, hck] at hb'
    exact h b' hb'
  | some bk =>
    simp only [snapshotStep, hck] at hb'
    by_cases hkj : k = j
    · subst hkj
      rw [get?_set_same c k _ (get?_some_lt c k bk hck)] at hb'
      cases hb'
      exact is_block_valid_flag_false c bk (h bk hck)
    · rw [get?_set_ne c k j _ hkj] at hb'
      exact h b' hb'

theorem foldl_snapshotStep_invalid :
    ∀ (ks : List Nat) (acc : List Block) (j : Nat),
      (∀ b, acc.get? j = some b → b.is_valid = false) →
      ∀ b', (ks.foldl snapshotStep acc).get? j = some b' → b'.is_valid = false
  | [], _, _, h, b', hb' => h b' hb'
  | k :: ks, acc, j, h, b', hb' =>
    foldl_snapshotStep_invalid ks (snapshotStep acc k) j
      (snapshotStep_invalid acc k j h) b' hb'

/-- `add_block` only appends: the new chain is the old chain plus one block. -/
theorem add_block_shape (c : List Block) (data ts : String) (fuel : Nat)
    (c' : List Block) (hm : add_block c data ts fuel = some c') :
    ∃ b2, c' = c ++ [b2] := by
  unfold add_block at hm
  split at hm
  · cases hm
  · obtain ⟨b, hb1, hm2⟩ := Option.bind_eq_some.mp hm
    obtain ⟨p, hp1, hm3⟩ := Option.map_eq_some'.mp hm2
    exact ⟨_, hm3.symm⟩

end App

/-! ## C9: no transition back to valid -/

/-- C9: no exposed state-changing operation (append, tamper route with any
outcome, or snapshot) turns the `valid` flag of a block that is false back
to true: if position `i` held a block with a false flag before the step, it
holds a block with a false flag after. -/
theorem App.no_revalidation (c c' : List App.Block) (h : App.ChainStep c c')
    (i : Nat) (b b' : App.Block) (hb : c.get? i = some b)
    (hv : b.is_valid = false) (hb' : c'.get? i = some b') :
    b'.is_valid = false := by
  cases h with
  | mine data ts fuel =>
    rename_i hm
    obtain ⟨b2, rfl⟩ := App.add_block_shape c data ts fuel c' hm
    rw [App.get?_append_lt c [b2] i (App.get?_some_lt c i b hb), hb] at hb'
    cases hb'
    exact hv
  | tamper i2 nd r =>
    rename_i hroute
    rcases App.route_result_get? c i2 nd r c' hroute i with he | hf
    · rw [he, hb] at hb'
      cases hb'
      exact hv
    · exact hf b' hb'
  | snapshot =>
    exact App.foldl_snapshotStep_invalid _ c i
      (fun bb hbb => by rw [hb] at hbb; cases hbb; exact hv) b' hb'

/-- C9 (witness): a snapshot step on a concrete chain whose block 1 has a
false flag; block 1 still has a false flag after. -/
theorem App.no_revalidation_witness : App.blkBInvalid.is_valid = false :=
  App.no_revalidation App.cexC9 (App.get_chain App.cexC9)
    (App.ChainStep.snapshot App.cexC9) 1 App.blkBInvalid App.blkBInvalid
    (by decide) (by decide) (by decide)

namespace App

/-! ## The honest construction: genesis plus appends -/

theorem getLast?_eq_get? {α : Type} :
    ∀ (l : List α), l.getLast? = l.get? (l.length - 1)
  | [] => rfl
  | [_] => rfl
  | a :: b :: xs => by
    have h := getLast?_eq_get? (b :: xs)
    simp only [List.getLast?_cons_cons, h]
    simp [List.length_cons]

theorem get?_append_length {α : Type} :
    ∀ (l : List α) (a : α), (l ++ [a]).get? l.length = some a
  | [], _ => rfl
  | _ :: xs, a => get?_append_length xs a

/-- `is_block_valid` reads the chain only at the predecessor position. -/
theorem is_block_valid_congr (c c' : List Block) (b : Block)
    (h : c'.get? (b.index - 1) = c.get? (b.index - 1)) :
    is_block_valid c' b = is_block_valid c b := by
  unfold is_block_valid
  split
  · rfl
  · rw [h]

/-- Unpacking genesis creation: the one-block chain and its stored fields. -/
theorem create_genesis_eq (ts : String) (fuel : Nat) (c : List Block)
    (h : create_genesis_block ts fuel = some c) :
    ∃ g, c = [g] ∧ g.index = 0 ∧ g.data = "Genesis Block" ∧ g.timestamp = ts ∧
      g.previous_hash = "0" ∧ g.is_valid = true ∧
      startsWithZeros difficulty g.hash = true := by
  unfold create_genesis_block at h
  obtain ⟨g0, hg0, h2⟩ := Option.bind_eq_some.mp h
  obtain ⟨p, hp, h3⟩ := Option.map_eq_some'.mp h2
  obtain ⟨ph, pn⟩ := p
  obtain ⟨hi, hd, ht, hph, hv, _, _⟩ := mkBlock_eq 0 "Genesis Block" ts "0" fuel g0 hg0
  obtain ⟨hz2, _⟩ :=
    powFrom_eq (fun k => Block.compute_hash {g0 with nonce := k}) difficulty fuel 0 ph pn hp
  exact ⟨{g0 with hash := ph, nonce := pn}, h3.symm, hi, hd, ht, hph, hv, hz2⟩

/-- Unpacking `add_block`: the appended block and its stored fields. -/
theorem add_block_eq (c : List Block) (data ts : String) (fuel : Nat)
    (c' : List Block) (hm : add_block c data ts fuel = some c') :
    ∃ last b1, c.getLast? = some last ∧ c' = c ++ [withFlag c b1] ∧
      b1.index = c.length ∧ b1.data = data ∧ b1.timestamp = ts ∧
      b1.previous_hash = last.hash ∧ b1.is_valid = true ∧
      startsWithZeros difficulty b1.hash = true := by
  unfold add_block at hm
  split at hm
  · cases hm
  · rename_i last hlast
    obtain ⟨b, hb1, hm2⟩ := Option.bind_eq_some.mp hm
    obtain ⟨p, hp1, hm3⟩ := Option.map_eq_some'.mp hm2
    obtain ⟨ph, pn⟩ := p
    obtain ⟨hbi, hbd, hbt, hbp, hbv, _, _⟩ := mkBlock_eq _ _ _ _ _ b hb1
    obtain ⟨hz2, _⟩ :=
      powFrom_eq (fun k => Block.compute_hash {b with nonce := k}) difficulty fuel 0 ph pn hp1
    exact ⟨last, {b with hash := ph, nonce := pn}, hlast, hm3.symm,
      hbi, hbd, hbt, hbp, hbv, hz2⟩

theorem genesis_honest (ts : String) (fuel : Nat) (c : List Block)
    (h : create_genesis_block ts fuel = some c) : HonestInv c := by
  obtain ⟨g, rfl, hi, _, _, hph, hv, hz⟩ := create_genesis_eq ts fuel c h
  refine ⟨by simp, ?_, ?_, ?_⟩
  · intro i b hb
    cases i with
    | zero =>
      simp at hb
      subst hb
      exact ⟨hi, hv, hz⟩
    | succ n => simp at hb
  · intro b0 hb0
    simp at hb0
    subst hb0
    exact hph
  · intro i bi bp hbi hbp
    simp at hbi

/-- The fields of `withFlag` other than the flag are those of its input. -/
theorem withFlag_fields (c : List Block) (b1 : Block) :
    (withFlag c b1).index = b1.index ∧ (withFlag c b1).data = b1.data ∧
    (withFlag c b1).timestamp = b1.timestamp ∧
    (withFlag c b1).previous_hash = b1.previous_hash ∧
    (withFlag c b1).nonce = b1.nonce ∧ (withFlag c b1).hash = b1.hash ∧
    (withFlag c b1).is_valid = is_block_valid c b1 :=
  ⟨rfl, rfl, rfl, rfl, rfl, rfl, rfl⟩

/-- In a nonempty chain whose last block is linked by the new block, the
freshly appended block passes `is_block_valid` against the old chain. -/
theorem new_block_valid (c : List Block) (b1 : Block) (last : Block)
    (hne : c ≠ []) (hlast : c.getLast? = some last)
    (hidx : b1.index = c.length) (hprev : b1.previous_hash = last.hash)
    (hflag : b1.is_valid = true) (hz : startsWithZeros difficulty b1.hash = true) :
    is_block_valid c b1 = true := by
  have hlen0 : 0 < c.length := List.length_pos.mpr hne
  have hlastg : c.get? (c.length - 1) = some last := by
    rw [← getLast?_eq_get?]
    exact hlast
  have hne0 : b1.index ≠ 0 := by omega
  unfold is_block_valid
  rw [if_neg hne0, hidx, hlastg, hz, hprev, hflag]
  simp

theorem add_block_honest (c : List Block) (data ts : String) (fuel : Nat)
    (c' : List Block) (hinv : HonestInv c)
    (hm : add_block c data ts fuel = some c') : HonestInv c' := by
  obtain ⟨hne, hall, hgen, hlink⟩ := hinv
  obtain ⟨last, b1, hlast, rfl, hidx, _, _, hprev, hflag, hz⟩ :=
    add_block_eq c data ts fuel c' hm
  have hv2 : (withFlag c b1).is_valid = true := by
    show is_block_valid c b1 = true
    exact new_block_valid c b1 last hne hlast hidx hprev hflag hz
  have hget2 : ∀ i b, (c ++ [withFlag c b1]).get? i = some b →
      (i < c.length ∧ c.get? i = some b) ∨ (i = c.length ∧ b = withFlag c b1) := by
    intro i b hb
    have hil : i < c.length + 1 := by
      have := get?_some_lt _ i b hb
      simpa using this
    rcases Nat.lt_or_ge i c.length with hlt | hge
    · left
      exact ⟨hlt, by rw [← get?_append_lt c [withFlag c b1] i hlt]; exact hb⟩
    · right
      have hieq : i = c.length := by omega
      subst hieq
      rw [get?_append_length] at hb
      cases hb
      exact ⟨rfl, rfl⟩
  refine ⟨by simp, ?_, ?_, ?_⟩
  · intro i b hb
    rcases hget2 i b hb with ⟨hlt, hold⟩ | ⟨rfl, rfl⟩
    · exact hall i b hold
    · exact ⟨hidx, hv2, hz⟩
  · intro b0 hb0
    have hlen0 : 0 < c.length := List.length_pos.mpr hne
    rw [get?_append_lt c _ 0 hlen0] at hb0
    exact hgen b0 hb0
  · intro i bi bp hbi hbp
    rcases hget2 (i + 1) bi hbi with ⟨hlt, holdi⟩ | ⟨hieq, rfl⟩
    · have hplt : i < c.length := by omega
      rw [get?_append_lt c _ i hplt] at hbp
      exact hlink i bi bp holdi hbp
    · have hplt : i < c.length := by omega
      rw [get?_append_lt c _ i hplt] at hbp
      have hip : i = c.length - 1 := by omega
      subst hip
      rw [← getLast?_eq_get?, hlast] at hbp
      cases hbp
      exact hprev

theorem buildChain_honest (ts : String) (items : List (String × String))
    (fuel : Nat) (c : List Block) (h : buildChain ts items fuel = some c) :
    HonestInv c := by
  unfold buildChain at h
  obtain ⟨c0, hc0, hfold⟩ := Option.bind_eq_some.mp h
  have h0 := genesis_honest ts fuel c0 hc0
  clear hc0 h
  induction items generalizing c0 with
  | nil =>
    simp only [List.foldlM] at hfold
    cases hfold
    exact h0
  | cons it its ih =>
    rw [List.foldlM_cons] at hfold
    cases ha : add_block c0 it.1 it.2 fuel with
    | none => rw [ha] at hfold; simp at hfold
    | some c1 =>
      rw [ha] at hfold
      exact ih c1 hfold (add_block_honest c0 it.1 it.2 fuel c1 h0 ha)

end App

/-! ## C5: chain linkage on honest construction -/

/-- C5: a chain built by genesis creation followed by any sequence of
`add_block` calls (no tampering) satisfies: the genesis block's
`previous_hash` is the sentinel "0", every later block's `previous_hash`
equals the stored hash of its predecessor, every block's flag is true, and
`is_chain_valid` returns true. -/
theorem App.chain_linkage (ts : String) (items : List (String × String))
    (fuel : Nat) (c : List App.Block)
    (h : App.buildChain ts items fuel = some c) :
    (∀ b0, c.get? 0 = some b0 → b0.previous_hash = "0") ∧
    (∀ i bi bp, c.get? (i + 1) = some bi → c.get? i = some bp →
      bi.previous_hash = bp.hash) ∧
    (∀ b ∈ c, b.is_valid = true) ∧
    App.is_chain_valid c = true := by
  obtain ⟨hne, hall, hgen, hlink⟩ := App.buildChain_honest ts items fuel c h
  refine ⟨hgen, hlink, ?_, ?_⟩
  · intro b hb
    obtain ⟨i, hi⟩ := List.get?_of_mem hb
    exact (hall i b hi).2.1
  · rw [App.is_chain_valid, List.all_eq_true]
    intro b hb
    obtain ⟨i, hi⟩ := List.get?_of_mem hb
    obtain ⟨hidx, hflag, hz⟩ := hall i b hi
    cases i with
    | zero =>
      unfold App.is_block_valid
      rw [if_pos hidx, hz, hgen b hi, hflag]
      simp
    | succ j =>
      have hjlt : j < c.length := by
        have := App.get?_some_lt c (j + 1) b hi
        omega
      obtain ⟨bp, hbp⟩ := App.get?_isSome_of_lt c j hjlt
      have hne0 : b.index ≠ 0 := by omega
      unfold App.is_block_valid
      rw [if_neg hne0, hidx]
      simp only [Nat.add_sub_cancel]
      rw [hbp, hz, hlink j b bp hi hbp, hflag]
      simp

namespace App

/-- Genesis creation at the lucky timestamp evaluates to `luckyChain`. -/
theorem luckyChain_eq : create_genesis_block "T6812331" 2 = some luckyChain := by
  decide

end App

/-- C5 (witness): the linkage theorem applied to the concretely built
one-block chain (genesis, zero appends). -/
theorem App.chain_linkage_witness :
    (∀ b0, App.luckyChain.get? 0 = some b0 → b0.previous_hash = "0") ∧
    (∀ i bi bp, App.luckyChain.get? (i + 1) = some bi →
      App.luckyChain.get? i = some bp → bi.previous_hash = bp.hash) ∧
    (∀ b ∈ App.luckyChain, b.is_valid = true) ∧
    App.is_chain_valid App.luckyChain = true := by
  have hb : App.buildChain "T6812331" [] 2 = some App.luckyChain := by
    unfold App.buildChain
    rw [App.luckyChain_eq]
    rfl
  exact App.chain_linkage "T6812331" [] 2 App.luckyChain hb

namespace App

/-! ## The reachable-state invariant behind the snapshot route -/

theorem get?_append_cases {α : Type} (l : List α) (a : α) (i : Nat) (b : α)
    (hb : (l ++ [a]).get? i = some b) :
    (i < l.length ∧ l.get? i = some b) ∨ (i = l.length ∧ b = a) := by
  have hil : i < l.length + 1 := by
    have := get?_some_lt _ i b hb
    simpa using this
  rcases Nat.lt_or_ge i l.length with hlt | hge
  · left
    refine ⟨hlt, ?_⟩
    rw [← get?_append_lt l [a] i hlt]
    exact hb
  · right
    have hieq : i = l.length := by omega
    subst hieq
    rw [get?_append_length] at hb
    cases hb
    exact ⟨rfl, rfl⟩

theorem genesis_validInv (ts : String) (fuel : Nat) (c : List Block)
    (h : create_genesis_block ts fuel = some c) : ValidInv c := by
  obtain ⟨g, rfl, hi, _, _, hph, hv, hz⟩ := create_genesis_eq ts fuel c h
  constructor
  · intro i b hb
    cases i with
    | zero => simp at hb; subst hb; exact hi
    | succ n => simp at hb
  · intro i b hb
    cases i with
    | zero =>
      simp at hb
      subst hb
      unfold is_block_valid
      rw [if_pos hi, hz, hph, hv]
      simp
    | succ n => simp at hb

theorem add_block_validInv (c : List Block) (data ts : String) (fuel : Nat)
    (c' : List Block) (hinv : ValidInv c)
    (hm : add_block c data ts fuel = some c') : ValidInv c' := by
  obtain ⟨hidxinv, hvalinv⟩ := hinv
  obtain ⟨last, b1, hlast, rfl, hidx, _, _, hprev, hflag, hz⟩ :=
    add_block_eq c data ts fuel c' hm
  have hne : c ≠ [] := by
    intro he
    rw [he] at hlast
    cases hlast
  have hlen0 : 0 < c.length := List.length_pos.mpr hne
  constructor
  · intro i b hb
    rcases get?_append_cases c _ i b hb with ⟨_, hold⟩ | ⟨rfl, rfl⟩
    · exact hidxinv i b hold
    · exact hidx
  · intro i b hb
    rcases get?_append_cases c _ i b hb with ⟨hlt, hold⟩ | ⟨rfl, rfl⟩
    · have hbidx : b.index = i := hidxinv i b hold
      have hcongr : is_block_valid (c ++ [withFlag c b1]) b = is_block_valid c b := by
        apply is_block_valid_congr
        exact get?_append_lt c _ (b.index - 1) (by omega)
      rw [hcongr]
      exact hvalinv i b hold
    · have hne0 : (withFlag c b1).index ≠ 0 := by
        show b1.index ≠ 0
        omega
      have hlastg : (c ++ [withFlag c b1]).get? ((withFlag c b1).index - 1) =
          some last := by
        show (c ++ [withFlag c b1]).get? (b1.index - 1) = some last
        rw [hidx, get?_append_lt c _ (c.length - 1) (by omega), ← getLast?_eq_get?]
        exact hlast
      unfold is_block_valid
      rw [if_neg hne0, hlastg]
      have h1 : startsWithZeros difficulty (withFlag c b1).hash = true := hz
      have h2 : ((withFlag c b1).previous_hash == last.hash) = true := by
        show (b1.previous_hash == last.hash) = true
        rw [hprev]
        simp
      show (startsWithZeros difficulty (withFlag c b1).hash &&
        ((withFlag c b1).previous_hash == last.hash) &&
        (withFlag c b1).is_valid) = (withFlag c b1).is_valid
      rw [h1, h2]
      simp

theorem mid_get? (c : List Block) (pos : Nat) (u : Block) (j : Nat)
    (hpos : pos < c.length) :
    ((c.set pos u).get? j = c.get? j ∧ j ≠ pos) ∨
    (j = pos ∧ (c.set pos u).get? j = some u) := by
  by_cases hj : j = pos
  · right
    subst hj
    exact ⟨rfl, get?_set_same c j u hpos⟩
  · left
    exact ⟨get?_set_ne c pos j u (fun e => hj e.symm), hj⟩

/-- Where a block of the tampered chain comes from: an untouched or merely
invalidated old block off the tampered position, or the rewritten block
(possibly re-invalidated) at the tampered position. -/
theorem tamper_origin (c : List Block) (pos : Nat) (u : Block) (rng : List Int)
    (j : Nat) (hpos : pos < c.length) (bj : Block)
    (hbj : (cascade (c.set pos u) rng).get? j = some bj) :
    (∃ bo, c.get? j = some bo ∧ j ≠ pos ∧
      (bj = bo ∨ bj = {bo with is_valid := false})) ∨
    (j = pos ∧ (bj = u ∨ bj = {u with is_valid := false})) := by
  rcases cascade_get? rng (c.set pos u) j with he | ⟨bb, hbb, he⟩
  · rw [he] at hbj
    rcases mid_get? c pos u j hpos with ⟨hmg, hne⟩ | ⟨rfl, hmg⟩
    · rw [hmg] at hbj
      exact Or.inl ⟨bj, hbj, hne, Or.inl rfl⟩
    · rw [hmg] at hbj
      cases hbj
      exact Or.inr ⟨rfl, Or.inl rfl⟩
  · rw [he] at hbj
    cases hbj
    rcases mid_get? c pos u j hpos with ⟨hmg, hne⟩ | ⟨rfl, hmg⟩
    · rw [hmg] at hbb
      exact Or.inl ⟨bb, hbb, hne, Or.inr rfl⟩
    · rw [hmg] at hbb
      cases hbb
      exact Or.inr ⟨rfl, Or.inr rfl⟩

end App

namespace App

theorem route_validInv (c : List Block) (i : Int) (nd : String)
    (r : TamperResponse) (c' : List Block) (hinv : ValidInv c)
    (h : update_data_route c i nd = some (r, c')) : ValidInv c' := by
  obtain ⟨hidxinv, hvalinv⟩ := hinv
  unfold update_data_route at h
  split at h
  · cases h
    exact ⟨hidxinv, hvalinv⟩
  · split at h
    · split at h
      · cases h
      · split at h
        · cases h
        · rename_i hi0 hilen x1 pos hpi x2 b hbg
          split at h
          · cases h
            have hpos_lt : pos < c.length := pyIdx_lt i c.length pos hpi
            have hbidx : b.index = pos := hidxinv pos b hbg
            have hclen : (cascade (c.set pos (b.update_data nd))
                (pyRange (i + 1) (c.length : Int))).length = c.length := by
              rw [cascade_length]
              simp
            constructor
            · intro j bj hbj
              rcases tamper_origin c pos (b.update_data nd) _ j hpos_lt bj hbj with
                ⟨bo, hbo, _, hbj2 | hbj2⟩ | ⟨rfl, hbj2 | hbj2⟩
              · subst hbj2
                exact hidxinv j bj hbo
              · rw [hbj2]
                exact hidxinv j bo hbo
              · rw [hbj2]
                exact hbidx
              · rw [hbj2]
                exact hbidx
            · intro j bj hbj
              cases hbv : bj.is_valid with
              | false => exact is_block_valid_flag_false _ bj hbv
              | true =>
                have hjlen : j < c.length := by
                  have hl := get?_some_lt _ j bj hbj
                  rw [hclen] at hl
                  exact hl
                have hnot : ¬ (i + 1 ≤ (j : Int)) := by
                  intro hle
                  have hmem : ((j : Nat) : Int) ∈ pyRange (i + 1) (c.length : Int) :=
                    pyRange_mem_of _ _ _ hle (by exact_mod_cast hjlen)
                  have hidxj : pyIdx ((j : Nat) : Int)
                      (c.set pos (b.update_data nd)).length = some j := by
                    rw [List.length_set]
                    exact pyIdx_natCast j c.length hjlen
                  have hf := cascade_invalid _ _ _ j hmem hidxj bj hbj
                  rw [hbv] at hf
                  cases hf
                have hi_nonneg : 0 ≤ i := by omega
                have hpos_eq : pos = i.toNat := by
                  rw [pyIdx_pos_eq i c.length hi_nonneg hilen] at hpi
                  cases hpi
                  rfl
                have hjlepos : j ≤ pos := by omega
                rcases tamper_origin c pos (b.update_data nd) _ j hpos_lt bj hbj with
                  ⟨bo, hbo, hjne, hbj2 | hbj2⟩ | ⟨rfl, hbj2 | hbj2⟩
                · subst hbj2
                  have hjlt : j < pos := by omega
                  have hbjidx : bj.index = j := hidxinv j bj hbo
                  have hpredeq : (cascade (c.set pos (b.update_data nd))
                      (pyRange (i + 1) (c.length : Int))).get? (bj.index - 1) =
                      c.get? (bj.index - 1) := by
                    rw [hbjidx]
                    have huntouch : ∀ x ∈ pyRange (i + 1) (c.length : Int),
                        pyIdx x (c.set pos (b.update_data nd)).length ≠
                          some (j - 1) := by
                      intro x hx hcon
                      obtain ⟨hx1, hx2⟩ := mem_pyRange _ _ x hx
                      rw [List.length_set,
                        pyIdx_pos_eq x c.length (by omega) hx2] at hcon
                      simp only [Option.some.injEq] at hcon
                      omega
                    rw [cascade_untouched _ _ _ huntouch]
                    exact get?_set_ne c pos (j - 1) _ (by omega)
                  rw [is_block_valid_congr c _ bj hpredeq, hvalinv j bj hbo]
                  exact hbv
                · rw [hbj2] at hbv
                  simp at hbv
                · rw [hbj2] at hbv
                  simp [Block.update_data] at hbv
                · rw [hbj2] at hbv
                  simp at hbv
          · cases h
            exact ⟨hidxinv, hvalinv⟩
    · cases h
      exact ⟨hidxinv, hvalinv⟩

/-- Structure eta for the flag: writing back a block's own flag value is the
identity. -/
theorem flag_eta (x : Block) (v : Bool) (hv : x.is_valid = v) :
    ({x with is_valid := v} : Block) = x := by
  cases x
  cases hv
  rfl

/-- Under the invariant, one snapshot assignment writes back the value the
block already holds. -/
theorem snapshotStep_id (c : List Block) (k : Nat)
    (hinv : ∀ i b, c.get? i = some b → is_block_valid c b = b.is_valid) :
    snapshotStep c k = c := by
  cases hck : c.get? k with
  | none => simp only [snapshotStep, hck]
  | some bk =>
    simp only [snapshotStep, hck]
    rw [flag_eta bk (is_block_valid c bk) (hinv k bk hck).symm]
    exact set_get?_self c k bk hck

/-- Under the invariant the snapshot route is the identity on the chain. -/
theorem get_chain_id (c : List Block)
    (hinv : ∀ i b, c.get? i = some b → is_block_valid c b = b.is_valid) :
    get_chain c = c := by
  unfold get_chain
  generalize List.range c.length = ks
  induction ks with
  | nil => rfl
  | cons k ks ih =>
    show ks.foldl snapshotStep (snapshotStep c k) = c
    rw [snapshotStep_id c k hinv]
    exact ih

theorem reachable_validInv (c : List Block) (h : Reachable c) : ValidInv c := by
  induction h with
  | genesis ts fuel c hg => exact genesis_validInv ts fuel c hg
  | step c c' hr hs ih =>
    cases hs with
    | mine data ts fuel =>
      rename_i hm
      exact add_block_validInv c data ts fuel c' ih hm
    | tamper i nd r =>
      rename_i hroute
      exact route_validInv c i nd r c' ih hroute
    | snapshot =>
      rw [get_chain_id c ih.2]
      exact ih

end App

/-! ## C10: the snapshot route is observationally read-only -/

/-- C10: in every reachable chain state, `is_block_valid` agrees with every
block's stored flag, and consequently the `/chain` route's aliasing
assignment `block_info["is_valid"] = is_block_valid(block)` rewrites each
flag with its current value: the chain after the snapshot equals the chain
before it. -/
theorem App.snapshot_consistency (c : List App.Block) (h : App.Reachable c) :
    (∀ i b, c.get? i = some b → App.is_block_valid c b = b.is_valid) ∧
    App.get_chain c = c := by
  have hinv := App.reachable_validInv c h
  exact ⟨hinv.2, App.get_chain_id c hinv.2⟩

/-- C10 (witness): the consistency theorem on the concretely mined
genesis chain. -/
theorem App.snapshot_consistency_witness :
    (∀ i b, App.luckyChain.get? i = some b →
      App.is_block_valid App.luckyChain b = b.is_valid) ∧
    App.get_chain App.luckyChain = App.luckyChain :=
  App.snapshot_consistency App.luckyChain
    (App.Reachable.genesis "T6812331" 2 App.luckyChain App.luckyChain_eq)
